import Mathlib

/-
Verification development for the storage substrate of smeagol
(src/git.rs): a versioned, path-addressed content store on top of a
content-addressed object store.

Modelling conventions:
- Object ids are content hashes, so two objects have the same id exactly
  when they are the same object.  We therefore represent an oid by the
  object value itself; blob id comparison becomes comparison of blob
  contents, which is the only id comparison the source performs (it is
  guarded by a kind check).
- A git TreeBuilder is a list of entries (name, filemode, object); names
  are unique in every tree reachable from real states.  Entry order never
  matters to the source functions modelled here (only lookup by name,
  replacement, removal and length are used), so we do not canonicalise.
- Fallible store operations (I/O, libgit2 errors) are outside the model;
  the remaining failure modes are the domain errors of GitError.
- The Rust assert!(!path.is_empty()) at the top of add_to_tree and
  remove_from_tree is modelled by an Option layer: a none result means a
  failed assertion (panic), some r means the function ran to completion
  with result r.
-/

namespace Smeagol

/-- Modelled from the spec: the PathModel of crate::Path, whose source
file is not part of the extracted sources.  A segment is a non-empty byte
sequence; a path is an ordered sequence of segments; the root is the
empty sequence.  parent drops the last segment, filename is the last
segment, pop_first removes the first segment, is_empty tests for root. -/
abbrev Seg : Type := List Nat

/-- Modelled from the spec: a path is an ordered sequence of segments. -/
abbrev Path : Type := List Seg

/-- The domain error taxonomy of src/git.rs (GitError), without the
store and I/O passthrough wrappers, which are outside the model. -/
inductive GitError : Type where
  | NotFound
  | NoParent
  | IsDir
  | IsFile
  | CannotCreate
  | NoChange
deriving DecidableEq, Repr

/-- Git objects reachable from a tree: blobs (raw bytes) and trees
(lists of entries name-filemode-object).  Content addressing makes
structural equality coincide with object id equality. -/
inductive GitObject : Type where
  | blob : List Nat → GitObject
  | tree : List (List Nat × Nat × GitObject) → GitObject

/-- A tree entry: name, filemode, object. -/
abbrev Entry : Type := Seg × Nat × GitObject

/-- The contents of a git TreeBuilder (and of a written tree). -/
abbrev TreeB : Type := List Entry

/-- TreeBuilder.get: the entry with the given name, if any. -/
def tbGet : TreeB → Seg → Option Entry
  | [], _ => none
  | e :: es, n => if e.1 = n then some e else tbGet es n

/-- TreeBuilder.insert: replace the entry with the given name, or add
one.  (git keeps entries sorted; order is irrelevant to this model.) -/
def tbInsert : TreeB → Seg → Nat → GitObject → TreeB
  | [], n, m, o => [(n, m, o)]
  | e :: es, n, m, o => if e.1 = n then (n, m, o) :: es else e :: tbInsert es n m o

/-- TreeBuilder.remove: drop the entry with the given name. -/
def tbRemove : TreeB → Seg → TreeB
  | [], _ => []
  | e :: es, n => if e.1 = n then es else e :: tbRemove es n

/-- A commit: tree, optional parent commit, message, author.  This
program only ever creates commits with zero or one parent. -/
inductive Commit : Type where
  | mk : TreeB → Option Commit → String → String → Commit

/-- The tree of a commit. -/
def Commit.tree : Commit → TreeB
  | .mk t _ _ _ => t

/-- The parent of a commit. -/
def Commit.parent : Commit → Option Commit
  | .mk _ p _ _ => p

/-- The message of a commit. -/
def Commit.message : Commit → String
  | .mk _ _ m _ => m

/-- The author of a commit. -/
def Commit.author : Commit → String
  | .mk _ _ _ a => a

/-- The only mutable state of a repository: the HEAD pointer.
none models the unborn branch of a freshly initialized repository. -/
structure RepoState : Type where
  head : Option Commit

/-- GitRepository::head.  On an unborn branch it writes an empty root
tree and a parentless commit with the fixed system signature and message,
publishes it as HEAD and returns it; otherwise it returns the commit
HEAD points at.  Returns the commit together with the resulting state. -/
def head (s : RepoState) : Commit × RepoState :=
  match s.head with
  | some c => (c, s)
  | none =>
    let c := Commit.mk [] none "Root commit" "smeagol"
    (c, { head := some c })

/-- GitItem::object, factored over the starting root tree: resolve a
path by resolving the parent path (all but the last segment) and looking
the last segment up in the resulting tree; a non-tree parent yields
NotFound, as does a missing entry. -/
def objectFrom (root : GitObject) (p : Path) : Except GitError GitObject :=
  if hp : p = [] then Except.ok root
  else
    match objectFrom root p.dropLast with
    | Except.error e => Except.error e
    | Except.ok (GitObject.blob _) => Except.error GitError.NotFound
    | Except.ok (GitObject.tree entries) =>
      match tbGet entries (p.getLast hp) with
      | some e => Except.ok e.2.2
      | none => Except.error GitError.NotFound
termination_by p.length
decreasing_by
  have h0 : p.length ≠ 0 := fun hlen => hp (List.length_eq_zero.mp hlen)
  simp [List.length_dropLast]
  omega

/-- Descending reformulation of path resolution, used in proofs: resolve
segment by segment from the root.  Proved equal to objectFrom below. -/
def resolveL : GitObject → Path → Except GitError GitObject
  | o, [] => Except.ok o
  | GitObject.blob _, _ :: _ => Except.error GitError.NotFound
  | GitObject.tree entries, n :: rest =>
    match tbGet entries n with
    | some e => resolveL e.2.2 rest
    | none => Except.error GitError.NotFound

/-- GitItem::object: resolve the item path against the tree of the
current head commit (head itself may bootstrap, see head). -/
def object (s : RepoState) (p : Path) : Except GitError GitObject :=
  objectFrom (GitObject.tree (head s).1.tree) p

/-- GitItem::content: blob gives its bytes, tree gives IsDir, resolution
errors propagate. -/
def content (s : RepoState) (p : Path) : Except GitError (List Nat) :=
  match object s p with
  | Except.ok (GitObject.blob c) => Except.ok c
  | Except.ok (GitObject.tree _) => Except.error GitError.IsDir
  | Except.error e => Except.error e

/-- GitItem::list: a tree gives one child item per entry (the item path
extended by the entry name), a blob gives IsFile, resolution errors
propagate. -/
def list (s : RepoState) (p : Path) : Except GitError (List Path) :=
  match object s p with
  | Except.ok (GitObject.tree es) => Except.ok (es.map (fun e => p ++ [e.1]))
  | Except.ok (GitObject.blob _) => Except.error GitError.IsFile
  | Except.error e => Except.error e

/-- GitItem::exists: successful resolution gives true, NotFound gives
false, any other error propagates. -/
def exists_ (s : RepoState) (p : Path) : Except GitError Bool :=
  match object s p with
  | Except.ok _ => Except.ok true
  | Except.error GitError.NotFound => Except.ok false
  | Except.error e => Except.error e

/-- GitItem::is_dir: the resolved object is a tree. -/
def is_dir (s : RepoState) (p : Path) : Except GitError Bool :=
  match object s p with
  | Except.ok (GitObject.tree _) => Except.ok true
  | Except.ok (GitObject.blob _) => Except.ok false
  | Except.error e => Except.error e

/-- GitItem::is_file: the resolved object is a blob. -/
def is_file (s : RepoState) (p : Path) : Except GitError Bool :=
  match object s p with
  | Except.ok (GitObject.blob _) => Except.ok true
  | Except.ok (GitObject.tree _) => Except.ok false
  | Except.error e => Except.error e

/-- GitItem::is_root: the path has no segments. -/
def is_root (p : Path) : Bool :=
  p.isEmpty

/-- GitItem::can_exist: true for the root and single-segment paths;
otherwise false when the parent exists and is a file, and the recursive
answer for the parent in the remaining cases. -/
def can_exist (s : RepoState) (p : Path) : Except GitError Bool :=
  if _h1 : p.length ≤ 1 then Except.ok true
  else
    match exists_ s p.dropLast with
    | Except.error e => Except.error e
    | Except.ok true =>
      match is_file s p.dropLast with
      | Except.error e => Except.error e
      | Except.ok true => Except.ok false
      | Except.ok false => can_exist s p.dropLast
    | Except.ok false => can_exist s p.dropLast
termination_by p.length
decreasing_by
  all_goals
    simp [List.length_dropLast]
    omega

/-- GitItem::add_to_tree.  none models the assertion failure on an empty
path.  Base case (one segment): an existing tree entry gives IsDir, an
existing blob entry with the same id gives NoChange, otherwise the blob
is inserted, preserving the filemode of the replaced entry or using the
non-executable default.  Recursive case: descend through an existing
subtree (a blob entry gives CannotCreate, a missing entry starts an
empty builder), then re-insert the rebuilt subtree at this level. -/
def add_to_tree (tb : TreeB) (p : Path) (object : GitObject) :
    Option (Except GitError TreeB) :=
  match p with
  | [] => none
  | [filename] =>
    match tbGet tb filename with
    | some entry =>
      match entry.2.2 with
      | GitObject.tree _ => some (Except.error GitError.IsDir)
      | GitObject.blob c0 =>
        match object with
        | GitObject.blob c1 =>
          if c0 = c1 then some (Except.error GitError.NoChange)
          else some (Except.ok (tbInsert tb filename entry.2.1 object))
        | GitObject.tree _ =>
          some (Except.ok (tbInsert tb filename entry.2.1 object))
    | none => some (Except.ok (tbInsert tb filename 0o100644 object))
  | first :: r0 :: r =>
    match tbGet tb first with
    | some entry =>
      match entry.2.2 with
      | GitObject.tree sub =>
        match add_to_tree sub (r0 :: r) object with
        | none => none
        | some (Except.error e) => some (Except.error e)
        | some (Except.ok sub2) =>
          some (Except.ok (tbInsert tb first 0o040000 (GitObject.tree sub2)))
      | GitObject.blob _ => some (Except.error GitError.CannotCreate)
    | none =>
      match add_to_tree [] (r0 :: r) object with
      | none => none
      | some (Except.error e) => some (Except.error e)
      | some (Except.ok sub2) =>
        some (Except.ok (tbInsert tb first 0o040000 (GitObject.tree sub2)))

/-- GitItem::edit: write the content as a blob, resolve head (possibly
bootstrapping), run add_to_tree on a builder seeded with the head tree,
and on success publish the new tree as a commit whose parent is the
previous head.  Returns the resulting state together with the result;
none models a panic. -/
def edit (s : RepoState) (p : Path) (c : List Nat) (message : String) :
    Option (RepoState × Except GitError Unit) :=
  let blobOid := GitObject.blob c
  let hs := head s
  match add_to_tree hs.1.tree p blobOid with
  | none => none
  | some (Except.error e) => some (hs.2, Except.error e)
  | some (Except.ok tb2) =>
    some ({ head := some (Commit.mk tb2 (some hs.1) message "smeagol") },
      Except.ok ())

/-- GitItem::remove_from_tree.  none models the assertion failure on an
empty path.  Base case: a missing entry gives NotFound, otherwise the
entry is removed and the boolean reports whether this level is now
empty.  Recursive case: descend through an existing subtree (a blob or
missing entry gives NotFound); if the subtree reports empty and this
level has exactly one entry, report empty upward without touching this
builder, otherwise re-insert the rebuilt subtree and report not empty. -/
def remove_from_tree (tb : TreeB) (p : Path) :
    Option (Except GitError (TreeB × Bool)) :=
  match p with
  | [] => none
  | [name] =>
    match tbGet tb name with
    | none => some (Except.error GitError.NotFound)
    | some _ =>
      let tb2 := tbRemove tb name
      some (Except.ok (tb2, tb2.length == 0))
  | first :: r0 :: r =>
    match tbGet tb first with
    | some entry =>
      match entry.2.2 with
      | GitObject.tree sub =>
        match remove_from_tree sub (r0 :: r) with
        | none => none
        | some (Except.error e) => some (Except.error e)
        | some (Except.ok (sub2, emptied)) =>
          if emptied then
            if tb.length = 1 then some (Except.ok (tb, true))
            else
              some (Except.ok
                (tbInsert tb first 0o040000 (GitObject.tree sub2), false))
          else
            some (Except.ok
              (tbInsert tb first 0o040000 (GitObject.tree sub2), false))
      | GitObject.blob _ => some (Except.error GitError.NotFound)
    | none => some (Except.error GitError.NotFound)

/-- GitItem::remove: the root path fails immediately with NotFound
before any store access; otherwise resolve head, run remove_from_tree,
replace the builder by an empty one when the top level reports empty,
and publish the new tree as a commit whose parent is the previous
head. -/
def remove (s : RepoState) (p : Path) (message : String) :
    Option (RepoState × Except GitError Unit) :=
  if is_root p then some (s, Except.error GitError.NotFound)
  else
    let hs := head s
    match remove_from_tree hs.1.tree p with
    | none => none
    | some (Except.error e) => some (hs.2, Except.error e)
    | some (Except.ok (tb1, emptied)) =>
      let tb2 := if emptied then ([] : TreeB) else tb1
      some ({ head := some (Commit.mk tb2 (some hs.1) message "smeagol") },
        Except.ok ())

/-! Basic lemmas about the tree builder operations. -/

theorem tbGet_tbInsert_self (tb : TreeB) (n : Seg) (m : Nat) (o : GitObject) :
    tbGet (tbInsert tb n m o) n = some (n, m, o) := by
  induction tb with
  | nil => simp [tbInsert, tbGet]
  | cons e es ih =>
    by_cases he : e.1 = n
    · simp [tbInsert, he, tbGet]
    · simp [tbInsert, he, tbGet, ih]

theorem tbGet_tbInsert_ne (tb : TreeB) (n n2 : Seg) (m : Nat) (o : GitObject)
    (h : n2 ≠ n) : tbGet (tbInsert tb n m o) n2 = tbGet tb n2 := by
  have hne : ¬ n = n2 := fun hc => h hc.symm
  induction tb with
  | nil => simp [tbInsert, tbGet, hne]
  | cons e es ih =>
    by_cases he : e.1 = n
    · subst he
      simp [tbInsert, tbGet, hne]
    · simp only [tbInsert, if_neg he]
      by_cases he2 : e.1 = n2
      · simp [tbGet, he2]
      · simp [tbGet, he2, ih]

/-! Equivalence of the two path resolution functions. -/

theorem resolveL_append (q : Path) : ∀ (o : GitObject) (r : Path),
    resolveL o (q ++ r) =
      match resolveL o q with
      | Except.ok o2 => resolveL o2 r
      | Except.error e => Except.error e := by
  induction q with
  | nil => intro o r; cases o <;> simp [resolveL]
  | cons n q ih =>
    intro o r
    cases o with
    | blob c => simp [resolveL]
    | tree es =>
      simp only [List.cons_append, resolveL]
      cases tbGet es n with
      | none => simp
      | some e => simpa using ih e.2.2 r

theorem objectFrom_eq_resolveL (root : GitObject) (p : Path) :
    objectFrom root p = resolveL root p := by
  induction p using List.reverseRecOn with
  | nil => rw [objectFrom]; simp [resolveL]
  | append_singleton q a ih =>
    rw [objectFrom, dif_neg (by simp : ¬ q ++ [a] = [])]
    rw [resolveL_append q root [a]]
    simp only [List.dropLast_concat, List.getLast_concat, ih]
    cases hq : resolveL root q with
    | error e => rfl
    | ok o2 =>
      cases o2 with
      | blob c => simp [resolveL]
      | tree es => simp [resolveL]

theorem object_eq (s : RepoState) (p : Path) :
    object s p = resolveL (GitObject.tree (head s).1.tree) p :=
  objectFrom_eq_resolveL _ _

/-- Path resolution fails only with NotFound. -/
theorem resolveL_total (p : Path) : ∀ (t : GitObject),
    (∃ o, resolveL t p = Except.ok o) ∨ resolveL t p = Except.error GitError.NotFound := by
  induction p with
  | nil => intro t; exact Or.inl ⟨t, by simp [resolveL]⟩
  | cons n rest ih =>
    intro t
    cases t with
    | blob c => exact Or.inr rfl
    | tree es =>
      simp only [resolveL]
      cases tbGet es n with
      | none => exact Or.inr rfl
      | some e => exact ih e.2.2

theorem object_total (s : RepoState) (p : Path) :
    (∃ o, object s p = Except.ok o) ∨ object s p = Except.error GitError.NotFound := by
  rw [object_eq]; exact resolveL_total p _

/-- The root path always resolves to the head tree. -/
theorem object_root (s : RepoState) :
    object s [] = Except.ok (GitObject.tree (head s).1.tree) := by
  rw [object_eq]; rfl

/-- Resolution below a blob fails with NotFound. -/
theorem resolveL_blob_append (q : Path) (t : GitObject) (b : List Nat) (r : Path)
    (hq : resolveL t q = Except.ok (GitObject.blob b)) (hr : r ≠ []) :
    resolveL t (q ++ r) = Except.error GitError.NotFound := by
  rw [resolveL_append, hq]
  cases r with
  | nil => exact absurd rfl hr
  | cons n r2 => rfl

/-- A successful resolution of a longer path forces every shorter
ancestor to resolve to a tree. -/
theorem resolveL_append_ok_tree (q : Path) (t : GitObject) (r : Path) (o : GitObject)
    (h : resolveL t (q ++ r) = Except.ok o) (hr : r ≠ []) :
    ∃ es, resolveL t q = Except.ok (GitObject.tree es) := by
  rw [resolveL_append] at h
  cases hq : resolveL t q with
  | error e => rw [hq] at h; exact absurd h (by simp)
  | ok o2 =>
    cases o2 with
    | blob c =>
      rw [hq] at h
      cases r with
      | nil => exact absurd rfl hr
      | cons n r2 => exact absurd h (by simp [resolveL])
    | tree es => exact ⟨es, rfl⟩

/-! Lemmas about add_to_tree. -/

/-- After a successful insert, the path resolves to the inserted blob. -/
theorem add_to_tree_resolve : ∀ (p : Path) (tb tb2 : TreeB) (c : List Nat),
    add_to_tree tb p (GitObject.blob c) = some (Except.ok tb2) →
    resolveL (GitObject.tree tb2) p = Except.ok (GitObject.blob c) := by
  intro p
  induction p with
  | nil => intro tb tb2 c h; simp [add_to_tree] at h
  | cons f rest ih =>
    intro tb tb2 c h
    cases rest with
    | nil =>
      cases hg : tbGet tb f with
      | none =>
        simp only [add_to_tree, hg, Option.some.injEq, Except.ok.injEq] at h
        subst h
        simp [resolveL, tbGet_tbInsert_self]
      | some entry =>
        cases ho : entry.2.2 with
        | tree s2 => simp [add_to_tree, hg, ho] at h
        | blob c0 =>
          by_cases hc : c0 = c
          · simp [add_to_tree, hg, ho, hc] at h
          · simp only [add_to_tree, hg, ho, if_neg hc, Option.some.injEq,
              Except.ok.injEq] at h
            subst h
            simp [resolveL, tbGet_tbInsert_self]
    | cons r0 r =>
      cases hg : tbGet tb f with
      | none =>
        cases ha : add_to_tree [] (r0 :: r) (GitObject.blob c) with
        | none => simp [add_to_tree, hg, ha] at h
        | some x =>
          cases x with
          | error e => simp [add_to_tree, hg, ha] at h
          | ok sub2 =>
            simp only [add_to_tree, hg, ha, Option.some.injEq, Except.ok.injEq] at h
            subst h
            have hrec := ih [] sub2 c ha
            simpa [resolveL, tbGet_tbInsert_self] using hrec
      | some entry =>
        cases ho : entry.2.2 with
        | blob c0 => simp [add_to_tree, hg, ho] at h
        | tree sub =>
          cases ha : add_to_tree sub (r0 :: r) (GitObject.blob c) with
          | none => simp [add_to_tree, hg, ho, ha] at h
          | some x =>
            cases x with
            | error e => simp [add_to_tree, hg, ho, ha] at h
            | ok sub2 =>
              simp only [add_to_tree, hg, ho, ha, Option.some.injEq,
                Except.ok.injEq] at h
              subst h
              have hrec := ih sub sub2 c ha
              simpa [resolveL, tbGet_tbInsert_self] using hrec

/-- Editing a path that already holds an identical blob fails with
NoChange. -/
theorem add_to_tree_nochange : ∀ (p : Path) (tb : TreeB) (c : List Nat),
    resolveL (GitObject.tree tb) p = Except.ok (GitObject.blob c) →
    add_to_tree tb p (GitObject.blob c) = some (Except.error GitError.NoChange) := by
  intro p
  induction p with
  | nil => intro tb c h; simp [resolveL] at h
  | cons f rest ih =>
    intro tb c h
    cases hg : tbGet tb f with
    | none => simp [resolveL, hg] at h
    | some entry =>
      cases rest with
      | nil =>
        simp only [resolveL, hg, Except.ok.injEq] at h
        simp [add_to_tree, hg, h]
      | cons r0 r =>
        simp only [resolveL, hg] at h
        cases ho : entry.2.2 with
        | blob c0 => rw [ho] at h; simp [resolveL] at h
        | tree sub =>
          rw [ho] at h
          simp [add_to_tree, hg, ho, ih sub c h]

/-- Editing a path that resolves to a directory fails with IsDir. -/
theorem add_to_tree_isdir : ∀ (p : Path) (tb es2 : TreeB) (c : List Nat),
    p ≠ [] →
    resolveL (GitObject.tree tb) p = Except.ok (GitObject.tree es2) →
    add_to_tree tb p (GitObject.blob c) = some (Except.error GitError.IsDir) := by
  intro p
  induction p with
  | nil => intro tb es2 c hne _; exact absurd rfl hne
  | cons f rest ih =>
    intro tb es2 c _ h
    cases hg : tbGet tb f with
    | none => simp [resolveL, hg] at h
    | some entry =>
      cases rest with
      | nil =>
        simp only [resolveL, hg, Except.ok.injEq] at h
        simp [add_to_tree, hg, h]
      | cons r0 r =>
        simp only [resolveL, hg] at h
        cases ho : entry.2.2 with
        | blob c0 => rw [ho] at h; simp [resolveL] at h
        | tree sub =>
          rw [ho] at h
          simp [add_to_tree, hg, ho, ih sub es2 c (by simp) h]

/-- Editing below an existing file fails with CannotCreate. -/
theorem add_to_tree_cannotcreate : ∀ (q : Path) (tb : TreeB) (b : List Nat)
    (r : Path) (c : List Nat),
    resolveL (GitObject.tree tb) q = Except.ok (GitObject.blob b) →
    r ≠ [] →
    add_to_tree tb (q ++ r) (GitObject.blob c) =
      some (Except.error GitError.CannotCreate) := by
  intro q
  induction q with
  | nil => intro tb b r c h _; simp [resolveL] at h
  | cons f q2 ih =>
    intro tb b r c h hr
    cases hg : tbGet tb f with
    | none => simp [resolveL, hg] at h
    | some entry =>
      cases q2 with
      | nil =>
        simp only [resolveL, hg, Except.ok.injEq] at h
        cases r with
        | nil => exact absurd rfl hr
        | cons r0 rr => simp [add_to_tree, hg, h]
      | cons g q3 =>
        simp only [resolveL, hg] at h
        cases ho : entry.2.2 with
        | blob c0 => rw [ho] at h; simp [resolveL] at h
        | tree sub =>
          rw [ho] at h
          have hrec := ih sub b r c h hr
          simp only [List.cons_append] at hrec ⊢
          simp [add_to_tree, hg, ho, hrec]

/-- add_to_tree only panics on the empty path. -/
theorem add_to_tree_ne_none : ∀ (p : Path) (tb : TreeB) (o : GitObject),
    p ≠ [] → add_to_tree tb p o ≠ none := by
  intro p
  induction p with
  | nil => intro tb o h; exact absurd rfl h
  | cons f rest ih =>
    intro tb o _
    cases rest with
    | nil =>
      cases hg : tbGet tb f with
      | none => simp [add_to_tree, hg]
      | some entry =>
        cases ho : entry.2.2 with
        | tree s2 => simp [add_to_tree, hg, ho]
        | blob c0 =>
          cases o with
          | tree s3 => simp [add_to_tree, hg, ho]
          | blob c1 => by_cases hc : c0 = c1 <;> simp [add_to_tree, hg, ho, hc]
    | cons r0 r =>
      cases hg : tbGet tb f with
      | none =>
        cases ha : add_to_tree [] (r0 :: r) o with
        | none => exact absurd ha (ih [] o (by simp))
        | some x => cases x <;> simp [add_to_tree, hg, ha]
      | some entry =>
        cases ho : entry.2.2 with
        | blob c0 => simp [add_to_tree, hg, ho]
        | tree sub =>
          cases ha : add_to_tree sub (r0 :: r) o with
          | none => exact absurd ha (ih sub o (by simp))
          | some x => cases x <;> simp [add_to_tree, hg, ho, ha]

/-- remove_from_tree only panics on the empty path. -/
theorem remove_from_tree_ne_none : ∀ (p : Path) (tb : TreeB),
    p ≠ [] → remove_from_tree tb p ≠ none := by
  intro p
  induction p with
  | nil => intro tb h; exact absurd rfl h
  | cons f rest ih =>
    intro tb _
    cases rest with
    | nil =>
      cases hg : tbGet tb f <;> simp [remove_from_tree, hg]
    | cons r0 r =>
      cases hg : tbGet tb f with
      | none => simp [remove_from_tree, hg]
      | some entry =>
        cases ho : entry.2.2 with
        | blob c0 => simp [remove_from_tree, hg, ho]
        | tree sub =>
          cases ha : remove_from_tree sub (r0 :: r) with
          | none => exact absurd ha (ih sub (by simp))
          | some x =>
            cases x with
            | error e => simp [remove_from_tree, hg, ho, ha]
            | ok pr =>
              obtain ⟨sub2, emptied⟩ := pr
              cases emptied <;> by_cases hl : tb.length = 1 <;>
                simp [remove_from_tree, hg, ho, ha, hl]

/-! Small facts about the read operations. -/

theorem exists_of_ok (s : RepoState) (p : Path) (o : GitObject)
    (h : object s p = Except.ok o) : exists_ s p = Except.ok true := by
  simp [exists_, h]

theorem exists_of_notfound (s : RepoState) (p : Path)
    (h : object s p = Except.error GitError.NotFound) :
    exists_ s p = Except.ok false := by
  simp [exists_, h]

theorem is_file_of_blob (s : RepoState) (p : Path) (c : List Nat)
    (h : object s p = Except.ok (GitObject.blob c)) :
    is_file s p = Except.ok true := by
  simp [is_file, h]

theorem is_file_of_tree (s : RepoState) (p : Path) (es : TreeB)
    (h : object s p = Except.ok (GitObject.tree es)) :
    is_file s p = Except.ok false := by
  simp [is_file, h]

/-! Claim theorems. -/

/-- Claim C2: for every path p, content c and message m, if
edit(p, c, m) succeeds then afterwards exists(p) returns true,
is_file(p) returns true, and content(p) returns exactly the bytes c. -/
theorem edit_roundtrip (s : RepoState) (p : Path) (c : List Nat) (m : String)
    (s1 : RepoState) (h : edit s p c m = some (s1, Except.ok ())) :
    exists_ s1 p = Except.ok true ∧ is_file s1 p = Except.ok true ∧
      content s1 p = Except.ok c := by
  cases ha : add_to_tree (head s).1.tree p (GitObject.blob c) with
  | none => simp [edit, ha] at h
  | some x =>
    cases x with
    | error e => simp [edit, ha] at h
    | ok tb2 =>
      simp only [edit, ha, Option.some.injEq, Prod.mk.injEq, and_true] at h
      have hobj : object s1 p = Except.ok (GitObject.blob c) := by
        rw [← h, object_eq]
        exact add_to_tree_resolve p _ tb2 c ha
      exact ⟨exists_of_ok _ _ _ hobj, is_file_of_blob _ _ _ hobj,
        by simp [content, hobj]⟩

/-- Witness for claim C2 at a concrete input: editing index file [0]
with bytes [42] in an empty repository. -/
theorem edit_roundtrip_witness :
    exists_ { head := some (Commit.mk [([0], 0o100644, GitObject.blob [42])]
        (some (Commit.mk [] none "Root commit" "smeagol")) "m" "smeagol") }
      [[0]] = Except.ok true ∧
    is_file { head := some (Commit.mk [([0], 0o100644, GitObject.blob [42])]
        (some (Commit.mk [] none "Root commit" "smeagol")) "m" "smeagol") }
      [[0]] = Except.ok true ∧
    content { head := some (Commit.mk [([0], 0o100644, GitObject.blob [42])]
        (some (Commit.mk [] none "Root commit" "smeagol")) "m" "smeagol") }
      [[0]] = Except.ok [42] :=
  edit_roundtrip { head := none } [[0]] [42] "m" _ (by rfl)

/-- Claim C3: editing a path that already holds a file with exactly the
same content fails with NoChange and publishes no commit: the state, and
hence the head commit and the history, are unchanged. -/
theorem edit_nochange (s : RepoState) (p : Path) (c : List Nat) (m : String)
    (h : object s p = Except.ok (GitObject.blob c)) :
    edit s p c m = some (s, Except.error GitError.NoChange) := by
  cases hs : s.head with
  | none =>
    exfalso
    rw [object_eq] at h
    cases p <;> simp [head, hs, resolveL, Commit.tree, tbGet] at h
  | some hc =>
    have hres : resolveL (GitObject.tree hc.tree) p = Except.ok (GitObject.blob c) := by
      rw [object_eq] at h
      simpa [head, hs] using h
    have ha := add_to_tree_nochange p hc.tree c hres
    simp [edit, head, hs, ha]

/-- Witness for claim C3 at a concrete input. -/
theorem edit_nochange_witness :
    edit { head := some (Commit.mk [([0], 0o100644, GitObject.blob [7])] none "c0" "a") }
      [[0]] [7] "m" =
      some ({ head := some (Commit.mk [([0], 0o100644, GitObject.blob [7])] none "c0" "a") },
        Except.error GitError.NoChange) :=
  edit_nochange _ [[0]] [7] "m" (by rw [object_eq]; rfl)

/-- Claim C4: edit fails with IsDir when the path resolves to an
existing directory, and with CannotCreate when a strict ancestor of the
path resolves to an existing file; in both cases the failure is
fail-fast: the state, and hence the head, is unchanged and no commit is
published. -/
theorem edit_conflicts (s : RepoState) (p : Path) (c : List Nat) (m : String) :
    (∀ es, p ≠ [] → object s p = Except.ok (GitObject.tree es) →
      edit s p c m = some (s, Except.error GitError.IsDir)) ∧
    (∀ q r b, p = q ++ r → r ≠ [] → object s q = Except.ok (GitObject.blob b) →
      edit s p c m = some (s, Except.error GitError.CannotCreate)) := by
  constructor
  · intro es hp hobj
    cases hs : s.head with
    | none =>
      exfalso
      rw [object_eq] at hobj
      cases p with
      | nil => exact absurd rfl hp
      | cons a l => simp [head, hs, resolveL, Commit.tree, tbGet] at hobj
    | some hc =>
      have hres : resolveL (GitObject.tree hc.tree) p =
          Except.ok (GitObject.tree es) := by
        rw [object_eq] at hobj
        simpa [head, hs] using hobj
      have ha := add_to_tree_isdir p hc.tree es c hp hres
      simp [edit, head, hs, ha]
  · intro q r b hpq hr hobj
    cases hs : s.head with
    | none =>
      exfalso
      rw [object_eq] at hobj
      cases q <;> simp [head, hs, resolveL, Commit.tree, tbGet] at hobj
    | some hc =>
      have hres : resolveL (GitObject.tree hc.tree) q =
          Except.ok (GitObject.blob b) := by
        rw [object_eq] at hobj
        simpa [head, hs] using hobj
      have ha := add_to_tree_cannotcreate q hc.tree b r c hres hr
      subst hpq
      simp [edit, head, hs, ha]

/-- Witness for claim C4 at concrete inputs: overwriting a directory,
and creating below a file. -/
theorem edit_conflicts_witness :
    edit { head := some (Commit.mk
        [([0], 0o040000, GitObject.tree [([1], 0o100644, GitObject.blob [5])])]
        none "c0" "a") } [[0]] [9] "m" =
      some ({ head := some (Commit.mk
        [([0], 0o040000, GitObject.tree [([1], 0o100644, GitObject.blob [5])])]
        none "c0" "a") }, Except.error GitError.IsDir) ∧
    edit { head := some (Commit.mk
        [([0], 0o040000, GitObject.tree [([1], 0o100644, GitObject.blob [5])])]
        none "c0" "a") } [[0], [1], [2]] [9] "m" =
      some ({ head := some (Commit.mk
        [([0], 0o040000, GitObject.tree [([1], 0o100644, GitObject.blob [5])])]
        none "c0" "a") }, Except.error GitError.CannotCreate) :=
  ⟨(edit_conflicts _ [[0]] [9] "m").1 [([1], 0o100644, GitObject.blob [5])]
      (by simp) (by rw [object_eq]; rfl),
   (edit_conflicts _ [[0], [1], [2]] [9] "m").2 [[0], [1]] [[2]] [5] rfl
      (by simp) (by rw [object_eq]; rfl)⟩

/-- Claim C5: content returns the bytes of a file, IsDir on a directory
and NotFound on an absent path; list returns one child path per entry of
a directory, IsFile on a file and NotFound on an absent path. -/
theorem content_list_spec (s : RepoState) (p : Path) :
    (∀ c, object s p = Except.ok (GitObject.blob c) →
      content s p = Except.ok c ∧ list s p = Except.error GitError.IsFile) ∧
    (∀ es, object s p = Except.ok (GitObject.tree es) →
      content s p = Except.error GitError.IsDir ∧
      list s p = Except.ok (es.map (fun e => p ++ [e.1]))) ∧
    (object s p = Except.error GitError.NotFound →
      content s p = Except.error GitError.NotFound ∧
      list s p = Except.error GitError.NotFound) := by
  refine ⟨fun c h => ⟨?_, ?_⟩, fun es h => ⟨?_, ?_⟩, fun h => ⟨?_, ?_⟩⟩ <;>
    simp [content, list, h]

/-- Witness for claim C5 at a concrete repository with a file, a
directory and an absent path. -/
theorem content_list_spec_witness :
    content { head := some (Commit.mk [([0], 0o100644, GitObject.blob [7]),
        ([1], 0o040000, GitObject.tree [([2], 0o100644, GitObject.blob [8])])]
        none "c0" "a") } [[0]] = Except.ok [7] ∧
    list { head := some (Commit.mk [([0], 0o100644, GitObject.blob [7]),
        ([1], 0o040000, GitObject.tree [([2], 0o100644, GitObject.blob [8])])]
        none "c0" "a") } [[0]] = Except.error GitError.IsFile ∧
    content { head := some (Commit.mk [([0], 0o100644, GitObject.blob [7]),
        ([1], 0o040000, GitObject.tree [([2], 0o100644, GitObject.blob [8])])]
        none "c0" "a") } [[1]] = Except.error GitError.IsDir ∧
    list { head := some (Commit.mk [([0], 0o100644, GitObject.blob [7]),
        ([1], 0o040000, GitObject.tree [([2], 0o100644, GitObject.blob [8])])]
        none "c0" "a") } [[1]] = Except.ok [[[1], [2]]] ∧
    content { head := some (Commit.mk [([0], 0o100644, GitObject.blob [7]),
        ([1], 0o040000, GitObject.tree [([2], 0o100644, GitObject.blob [8])])]
        none "c0" "a") } [[3]] = Except.error GitError.NotFound ∧
    list { head := some (Commit.mk [([0], 0o100644, GitObject.blob [7]),
        ([1], 0o040000, GitObject.tree [([2], 0o100644, GitObject.blob [8])])]
        none "c0" "a") } [[3]] = Except.error GitError.NotFound := by
  have h0 : object { head := some (Commit.mk [([0], 0o100644, GitObject.blob [7]),
      ([1], 0o040000, GitObject.tree [([2], 0o100644, GitObject.blob [8])])]
      none "c0" "a") } [[0]] = Except.ok (GitObject.blob [7]) := by
    rw [object_eq]; rfl
  have h1 : object { head := some (Commit.mk [([0], 0o100644, GitObject.blob [7]),
      ([1], 0o040000, GitObject.tree [([2], 0o100644, GitObject.blob [8])])]
      none "c0" "a") } [[1]] =
      Except.ok (GitObject.tree [([2], 0o100644, GitObject.blob [8])]) := by
    rw [object_eq]; rfl
  have h3 : object { head := some (Commit.mk [([0], 0o100644, GitObject.blob [7]),
      ([1], 0o040000, GitObject.tree [([2], 0o100644, GitObject.blob [8])])]
      none "c0" "a") } [[3]] = Except.error GitError.NotFound := by
    rw [object_eq]; rfl
  obtain ⟨w0a, w0b⟩ := (content_list_spec _ [[0]]).1 [7] h0
  obtain ⟨w1a, w1b⟩ := (content_list_spec _ [[1]]).2.1 _ h1
  obtain ⟨w3a, w3b⟩ := (content_list_spec _ [[3]]).2.2 h3
  exact ⟨w0a, w0b, w1a, by simpa using w1b, w3a, w3b⟩

/-- Claim C7: head on a repository without commits bootstraps by
creating a commit with an empty tree, no parent, the fixed system author
and the fixed message, and publishes it as the new head; head on a
repository that already has a head returns it unchanged, creating
nothing (so the bootstrap happens at most once and is idempotent). -/
theorem head_bootstrap_spec :
    head { head := none } =
      (Commit.mk [] none "Root commit" "smeagol",
       { head := some (Commit.mk [] none "Root commit" "smeagol") }) ∧
    (∀ c : Commit, head { head := some c } = (c, { head := some c })) :=
  ⟨rfl, fun _ => rfl⟩

/-- Claim C8: remove on the root path always fails with an error,
regardless of the repository contents, returning before any store access
(the state is returned untouched, in particular no bootstrap commit and
no new commit is created). -/
theorem remove_root_fails (s : RepoState) (m : String) :
    remove s [] m = some (s, Except.error GitError.NotFound) :=
  rfl

/-- Claim C9: when a strict ancestor of p resolves to a file, resolution
of p itself reports NotFound rather than a distinct error kind: exists
returns false (not an error) and content fails with NotFound. -/
theorem file_ancestor_notfound (s : RepoState) (q : Path) (b : List Nat) (r : Path)
    (hq : object s q = Except.ok (GitObject.blob b)) (hr : r ≠ []) :
    exists_ s (q ++ r) = Except.ok false ∧
    content s (q ++ r) = Except.error GitError.NotFound := by
  have h2 : object s (q ++ r) = Except.error GitError.NotFound := by
    rw [object_eq] at hq ⊢
    exact resolveL_blob_append q _ b r hq hr
  exact ⟨exists_of_notfound _ _ h2, by simp [content, h2]⟩

/-- Witness for claim C9 at a concrete input. -/
theorem file_ancestor_notfound_witness :
    exists_ { head := some (Commit.mk [([0], 0o100644, GitObject.blob [7])] none "c0" "a") }
      [[0], [1]] = Except.ok false ∧
    content { head := some (Commit.mk [([0], 0o100644, GitObject.blob [7])] none "c0" "a") }
      [[0], [1]] = Except.error GitError.NotFound :=
  file_ancestor_notfound _ [[0]] [7] [[1]] (by rw [object_eq]; rfl) (by simp)

/-- Claim C10: on any non-empty path, add_to_tree and remove_from_tree
(and hence edit and remove) never reach the failed assertion (modelled
by none); remove never reaches it at all thanks to the root check, and
only edit on the root path reaches it. -/
theorem assert_nonempty_paths :
    (∀ (tb : TreeB) (p : Path) (o : GitObject), p ≠ [] → add_to_tree tb p o ≠ none) ∧
    (∀ (tb : TreeB) (p : Path), p ≠ [] → remove_from_tree tb p ≠ none) ∧
    (∀ (s : RepoState) (p : Path) (c : List Nat) (m : String), p ≠ [] →
      edit s p c m ≠ none) ∧
    (∀ (s : RepoState) (p : Path) (m : String), remove s p m ≠ none) ∧
    (∀ (s : RepoState) (c : List Nat) (m : String), edit s [] c m = none) := by
  refine ⟨fun tb p o hp => add_to_tree_ne_none p tb o hp,
    fun tb p hp => remove_from_tree_ne_none p tb hp, ?_, ?_, ?_⟩
  · intro s p c m hp
    cases ha : add_to_tree (head s).1.tree p (GitObject.blob c) with
    | none => exact absurd ha (add_to_tree_ne_none p _ _ hp)
    | some x => cases x <;> simp [edit, ha]
  · intro s p m
    by_cases hroot : p = []
    · subst hroot; simp [remove, is_root]
    · have hie : is_root p = false := by
        cases p with
        | nil => exact absurd rfl hroot
        | cons a l => rfl
      cases ha : remove_from_tree (head s).1.tree p with
      | none => exact absurd ha (remove_from_tree_ne_none p _ hroot)
      | some x =>
        cases x with
        | error e => simp [remove, hie, ha]
        | ok pr =>
          obtain ⟨tb1, emptied⟩ := pr
          simp [remove, hie, ha]
  · intro s c m
    rfl

/-- Characterisation used by claim C6: some strict ancestor of p
resolves to an existing file.  Since resolution below a file always
fails, a file ancestor, when it exists, is automatically the nearest
existing strict ancestor of p. -/
def fileStrictAncestor (s : RepoState) (p : Path) : Prop :=
  ∃ q r b, p = q ++ r ∧ r ≠ [] ∧ object s q = Except.ok (GitObject.blob b)

/-- One-step case analysis of can_exist below the length guard. -/
theorem can_exist_unfold_cases (s : RepoState) (p : Path) (h1 : ¬ p.length ≤ 1) :
    (∀ c, object s p.dropLast = Except.ok (GitObject.blob c) →
        can_exist s p = Except.ok false) ∧
    (∀ es, object s p.dropLast = Except.ok (GitObject.tree es) →
        can_exist s p = can_exist s p.dropLast) ∧
    (object s p.dropLast = Except.error GitError.NotFound →
        can_exist s p = can_exist s p.dropLast) := by
  refine ⟨fun c h => ?_, fun es h => ?_, fun h => ?_⟩ <;>
    (rw [can_exist, dif_neg h1]; simp [exists_, is_file, h])

/-- can_exist never returns an error (fuelled by the path length). -/
theorem can_exist_total : ∀ (n : Nat) (s : RepoState) (p : Path), p.length ≤ n →
    can_exist s p = Except.ok true ∨ can_exist s p = Except.ok false := by
  intro n
  induction n with
  | zero =>
    intro s p hp
    have h0 : p = [] := List.length_eq_zero.mp (Nat.le_zero.mp hp)
    subst h0
    left; rw [can_exist, dif_pos (by simp)]
  | succ n ih =>
    intro s p hp
    by_cases h1 : p.length ≤ 1
    · left; rw [can_exist, dif_pos h1]
    · have hlen : p.dropLast.length ≤ n := by
        rw [List.length_dropLast]; omega
      obtain ⟨hblob, htree, hnf⟩ := can_exist_unfold_cases s p h1
      rcases object_total s p.dropLast with ⟨o, ho⟩ | ho
      · cases o with
        | blob c => exact Or.inr (hblob c ho)
        | tree es => rw [htree es ho]; exact ih s p.dropLast hlen
      · rw [hnf ho]; exact ih s p.dropLast hlen

/-- Fuelled main induction for claim C6: on paths of length at least
two, can_exist answers false exactly when a strict ancestor is an
existing file. -/
theorem can_exist_iff_aux : ∀ (n : Nat) (s : RepoState) (p : Path), p.length ≤ n →
    2 ≤ p.length →
    (can_exist s p = Except.ok false ↔ fileStrictAncestor s p) := by
  intro n
  induction n with
  | zero => intro s p hp h2; omega
  | succ n ih =>
    intro s p hp h2
    have h1 : ¬ p.length ≤ 1 := by omega
    have hpne : p ≠ [] := by
      intro he; subst he; simp at h2
    obtain ⟨hblob, htree, hnf⟩ := can_exist_unfold_cases s p h1
    have hsplit : p.dropLast ++ [p.getLast hpne] = p :=
      List.dropLast_append_getLast hpne
    have hfsaPp : fileStrictAncestor s p.dropLast → fileStrictAncestor s p := by
      rintro ⟨q, r, b, hpq, hr, hq⟩
      refine ⟨q, r ++ [p.getLast hpne], b, ?_, by simp, hq⟩
      calc p = p.dropLast ++ [p.getLast hpne] := hsplit.symm
        _ = (q ++ r) ++ [p.getLast hpne] := by rw [hpq]
        _ = q ++ (r ++ [p.getLast hpne]) := List.append_assoc q r _
    have hPlen : p.dropLast.length ≤ n := by
      rw [List.length_dropLast]; omega
    rcases object_total s p.dropLast with ⟨o, ho⟩ | ho
    · cases o with
      | blob c =>
        rw [hblob c ho]
        exact iff_of_true rfl
          ⟨p.dropLast, [p.getLast hpne], c, hsplit.symm, by simp, ho⟩
      | tree es =>
        rw [htree es ho]
        have hnofsa : ¬ fileStrictAncestor s p := by
          rintro ⟨q, r, b, hpq, hr, hq⟩
          have hPd : p.dropLast = q ++ r.dropLast := by
            rw [hpq, List.dropLast_append_of_ne_nil q hr]
          by_cases hrd : r.dropLast = []
          · rw [hrd, List.append_nil] at hPd
            rw [hPd] at ho
            rw [ho] at hq
            simp at hq
          · rw [hPd] at ho
            rw [object_eq] at ho hq
            obtain ⟨es2, hq2⟩ := resolveL_append_ok_tree q _ r.dropLast _ ho hrd
            rw [hq2] at hq
            simp at hq
        by_cases hP1 : p.dropLast.length ≤ 1
        · have hcP : can_exist s p.dropLast = Except.ok true := by
            rw [can_exist, dif_pos hP1]
          rw [hcP]
          exact iff_of_false (by simp) hnofsa
        · rcases can_exist_total n s p.dropLast hPlen with hT | hF
          · rw [hT]; exact iff_of_false (by simp) hnofsa
          · exact absurd (hfsaPp ((ih s p.dropLast hPlen (by omega)).mp hF)) hnofsa
    · rw [hnf ho]
      have hiffFSA : fileStrictAncestor s p ↔ fileStrictAncestor s p.dropLast := by
        constructor
        · rintro ⟨q, r, b, hpq, hr, hq⟩
          have hqP : q ≠ p.dropLast := by
            intro he
            rw [he, ho] at hq
            simp at hq
          have hPd : p.dropLast = q ++ r.dropLast := by
            rw [hpq, List.dropLast_append_of_ne_nil q hr]
          have hrd : r.dropLast ≠ [] := by
            intro he
            rw [he, List.append_nil] at hPd
            exact hqP hPd.symm
          exact ⟨q, r.dropLast, b, hPd, hrd, hq⟩
        · exact hfsaPp
      rw [hiffFSA]
      by_cases hP1 : p.dropLast.length ≤ 1
      · have hcP : can_exist s p.dropLast = Except.ok true := by
          rw [can_exist, dif_pos hP1]
        rw [hcP]
        refine iff_of_false (by simp) ?_
        rintro ⟨q, r, b, hpq, hr, hq⟩
        have hq0 : q = [] := by
          have hlen1 : p.dropLast.length = q.length + r.length := by
            rw [hpq]; simp
          have hrlen : 1 ≤ r.length := by
            cases r with
            | nil => exact absurd rfl hr
            | cons a l => simp
          have : q.length = 0 := by
            rw [List.length_dropLast] at hP1 hlen1
            omega
          exact List.length_eq_zero.mp this
        subst hq0
        rw [object_root] at hq
        simp at hq
      · exact ih s p.dropLast hPlen (by omega)

/-- Claim C6: can_exist returns true for the root and for one-segment
paths; on longer paths it returns false exactly when some strict
ancestor resolves to an existing file (such an ancestor is then the
nearest existing strict ancestor, since nothing exists below a file),
and true exactly when no strict ancestor is a file, that is, when the
nearest existing strict ancestor is a directory. -/
theorem can_exist_spec (s : RepoState) (p : Path) :
    (p.length ≤ 1 → can_exist s p = Except.ok true) ∧
    (2 ≤ p.length →
      ((can_exist s p = Except.ok false ↔ fileStrictAncestor s p) ∧
       (can_exist s p = Except.ok true ↔ ¬ fileStrictAncestor s p))) := by
  constructor
  · intro h1; rw [can_exist, dif_pos h1]
  · intro h2
    have hiff := can_exist_iff_aux p.length s p le_rfl h2
    refine ⟨hiff, ?_, ?_⟩
    · intro hT hFSA
      have hF := hiff.mpr hFSA
      rw [hT] at hF
      simp at hF
    · intro hn
      rcases can_exist_total p.length s p le_rfl with hT | hF
      · exact hT
      · exact absurd (hiff.mp hF) hn

/-- Witness for claim C6 at concrete inputs: the root can exist, and a
path below an existing file cannot. -/
theorem can_exist_spec_witness :
    can_exist { head := some (Commit.mk [([0], 0o100644, GitObject.blob [])] none "c0" "a") }
      ([] : Path) = Except.ok true ∧
    can_exist { head := some (Commit.mk [([0], 0o100644, GitObject.blob [])] none "c0" "a") }
      [[0], [1]] = Except.ok false :=
  ⟨(can_exist_spec _ []).1 (by simp),
   ((can_exist_spec _ [[0], [1]]).2 (by simp)).1.mpr
     ⟨[[0]], [[1]], [], rfl, by simp, by rw [object_eq]; rfl⟩⟩

/-- Witness for claim C10 at concrete inputs. -/
theorem assert_nonempty_paths_witness :
    add_to_tree [] [[0]] (GitObject.blob []) ≠ none ∧
    remove_from_tree [([0], 0o100644, GitObject.blob [])] [[0]] ≠ none ∧
    edit { head := none } [[0]] [] "m" ≠ none ∧
    remove { head := none } [[0]] "m" ≠ none ∧
    edit { head := none } ([] : Path) [] "m" = none :=
  ⟨assert_nonempty_paths.1 [] [[0]] (GitObject.blob []) (by simp),
   assert_nonempty_paths.2.1 _ [[0]] (by simp),
   assert_nonempty_paths.2.2.1 _ [[0]] [] "m" (by simp),
   assert_nonempty_paths.2.2.2.1 _ [[0]] "m",
   assert_nonempty_paths.2.2.2.2 _ [] "m"⟩

/-! Claim C1: behaviour of remove on a directory emptied by the
removal. -/

/-- Example repository: directory [0] holding the single file [1], and a
sibling file [2] at root. -/
def exRemoveBefore : RepoState :=
  { head := some (Commit.mk
      [([0], 0o040000, GitObject.tree [([1], 0o100644, GitObject.blob [97])]),
       ([2], 0o100644, GitObject.blob [98])] none "init" "a") }

/-- The state actually produced by removing [0]/[1] from
exRemoveBefore: the file is gone but the directory [0] survives as an
empty directory. -/
def exRemoveAfter : RepoState :=
  { head := some (Commit.mk
      [([0], 0o040000, GitObject.tree []),
       ([2], 0o100644, GitObject.blob [98])]
      (some (Commit.mk
        [([0], 0o040000, GitObject.tree [([1], 0o100644, GitObject.blob [97])]),
         ([2], 0o100644, GitObject.blob [98])] none "init" "a"))
      "m" "smeagol") }

/-- Counterexample to claim C1 as stated: removing the only file [1] of
directory [0] while a sibling file [2] exists at root succeeds, yet the
directory that now contains zero entries is NOT removed from its parent:
it still exists (as an empty directory) in the new head tree.  The
source test remove_only_file_in_dir_but_not_in_repo asserts exactly this
surviving-directory behaviour. -/
theorem remove_emptied_dir_kept_counterexample :
    remove exRemoveBefore [[0], [1]] "m" = some (exRemoveAfter, Except.ok ()) ∧
    exists_ exRemoveAfter [[0]] = Except.ok true ∧
    is_dir exRemoveAfter [[0]] = Except.ok true := by
  refine ⟨rfl, ?_, ?_⟩
  · exact exists_of_ok _ _ _ (by rw [object_eq]; rfl)
  · have hobj : object exRemoveAfter [[0]] = Except.ok (GitObject.tree []) := by
      rw [object_eq]; rfl
    simp [is_dir, hobj]

/-- Claim C1 (amended): for every repository state whose root tree lists
a directory d whose only entry is a file f, together with at least one
further root entry, remove(d/f, message) succeeds and removes the file,
but the emptied directory d is NOT pruned: it remains in the new head
tree as an existing, empty directory, while every root entry other than
d (such as a sibling file) resolves exactly as before.  (An emptied
directory is pruned only when every level from it up to the root would
be left with no other entry.) -/
theorem remove_keeps_emptied_dir (s : RepoState) (hc : Commit) (d f : Seg)
    (m0 m1 : Nat) (b : List Nat) (rest : TreeB) (msg : String)
    (hs : s.head = some hc)
    (ht : hc.tree = (d, m0, GitObject.tree [(f, m1, GitObject.blob b)]) :: rest)
    (hrest : rest ≠ []) :
    remove s [d, f] msg = some
      ({ head := some (Commit.mk ((d, 0o040000, GitObject.tree []) :: rest)
          (some hc) msg "smeagol") }, Except.ok ()) ∧
    exists_ { head := some (Commit.mk ((d, 0o040000, GitObject.tree []) :: rest)
        (some hc) msg "smeagol") } [d] = Except.ok true ∧
    is_dir { head := some (Commit.mk ((d, 0o040000, GitObject.tree []) :: rest)
        (some hc) msg "smeagol") } [d] = Except.ok true ∧
    list { head := some (Commit.mk ((d, 0o040000, GitObject.tree []) :: rest)
        (some hc) msg "smeagol") } [d] = Except.ok [] ∧
    exists_ { head := some (Commit.mk ((d, 0o040000, GitObject.tree []) :: rest)
        (some hc) msg "smeagol") } [d, f] = Except.ok false ∧
    (∀ n q, n ≠ d →
      object { head := some (Commit.mk ((d, 0o040000, GitObject.tree []) :: rest)
          (some hc) msg "smeagol") } (n :: q) = object s (n :: q)) := by
  have hrm : remove_from_tree hc.tree [d, f] =
      some (Except.ok ((d, 0o040000, GitObject.tree []) :: rest, false)) := by
    rw [ht]
    simp [remove_from_tree, tbGet, tbRemove, tbInsert, hrest]
  have hobjd : object { head := some (Commit.mk ((d, 0o040000, GitObject.tree []) :: rest)
      (some hc) msg "smeagol") } [d] = Except.ok (GitObject.tree []) := by
    rw [object_eq]
    simp [head, Commit.tree, resolveL, tbGet]
  have hobjdf : object { head := some (Commit.mk ((d, 0o040000, GitObject.tree []) :: rest)
      (some hc) msg "smeagol") } [d, f] = Except.error GitError.NotFound := by
    rw [object_eq]
    simp [head, Commit.tree, resolveL, tbGet]
  refine ⟨?_, exists_of_ok _ _ _ hobjd, by simp [is_dir, hobjd],
    by simp [list, hobjd], exists_of_notfound _ _ hobjdf, ?_⟩
  · simp [remove, is_root, head, hs, hrm]
  · intro n q hn
    have hdn : ¬ d = n := fun hh => hn hh.symm
    rw [object_eq, object_eq]
    simp [head, hs, ht, resolveL, tbGet, hdn]

/-- Witness for claim C1 (amended) at the concrete example repository. -/
theorem remove_keeps_emptied_dir_witness :
    remove exRemoveBefore [[0], [1]] "m" = some (exRemoveAfter, Except.ok ()) ∧
    exists_ exRemoveAfter [[0]] = Except.ok true ∧
    is_dir exRemoveAfter [[0]] = Except.ok true ∧
    list exRemoveAfter [[0]] = Except.ok [] ∧
    exists_ exRemoveAfter [[0], [1]] = Except.ok false ∧
    object exRemoveAfter [[2]] = object exRemoveBefore [[2]] := by
  obtain ⟨h1, h2, h3, h4, h5, h6⟩ :=
    remove_keeps_emptied_dir exRemoveBefore
      (Commit.mk
        [([0], 0o040000, GitObject.tree [([1], 0o100644, GitObject.blob [97])]),
         ([2], 0o100644, GitObject.blob [98])] none "init" "a")
      [0] [1] 0o040000 0o100644 [97] [([2], 0o100644, GitObject.blob [98])] "m"
      rfl rfl (by simp)
  exact ⟨h1, h2, h3, h4, h5, h6 [2] [] (by simp)⟩

end Smeagol
